import Mathlib

/-!
Verification of the brainf-ck-rs interpreter (src/main.rs).

The embedding below mirrors the source code.  Cells are bytes modelled as
natural numbers taken modulo 256; fallible operations (the panicking
indexing, the pointer-underflow assertion, the bracket scans that can run
off the end of the program) return `Option` or `Except`.  The preview
rendering, the per-step delay and the CLI layer are purely observational
or out of scope and are not modelled.
-/

namespace BF

/-- The instruction set, mirroring `enum Op` in the source. -/
inductive Op where
  | Left
  | Right
  | Incr
  | Decr
  | Out
  | In
  | Open
  | Close
deriving DecidableEq

/-- The memory tape, mirroring `struct Memory`: a pointer and a growable
vector of byte cells (bytes modelled as `Nat`, kept below 256 by the
operations). -/
structure Memory where
  ptr : Nat
  data : List Nat
deriving DecidableEq

/-- Mirrors `Memory::DEFAULT_MEMORY_CAPACITY`. -/
def defaultCapacity : Nat := 65536

/-- Mirrors `Memory::new`: pointer 0, `DEFAULT_MEMORY_CAPACITY` zero cells. -/
def Memory.new : Memory :=
  { ptr := 0, data := List.replicate defaultCapacity 0 }

/-- Mirrors `Memory::read`, i.e. `self.data[self.ptr]`: `none` models the
out-of-bounds panic. -/
def Memory.read (m : Memory) : Option Nat :=
  m.data[m.ptr]?

/-- Mirrors `Memory::set`, i.e. `self.data[self.ptr] = v`: `none` models the
out-of-bounds panic. -/
def Memory.set (m : Memory) (v : Nat) : Option Memory :=
  if m.ptr < m.data.length then some { m with data := m.data.set m.ptr v } else none

/-- Mirrors `Memory::left`: the `assert!(self.ptr != 0)` is modelled by
returning `none` (the pointer-underflow panic); otherwise the pointer is
decremented. -/
def Memory.left (m : Memory) : Option Memory :=
  if m.ptr = 0 then none else some { m with ptr := m.ptr - 1 }

/-- Mirrors `Memory::right`: when `self.ptr >= self.data.len()` a block of
`DEFAULT_MEMORY_CAPACITY` zero cells is appended, then the pointer is
incremented.  Note the growth test is against `ptr`, not `ptr + 1`. -/
def Memory.right (m : Memory) : Memory :=
  if m.data.length ≤ m.ptr then
    { ptr := m.ptr + 1, data := m.data ++ List.replicate defaultCapacity 0 }
  else
    { ptr := m.ptr + 1, data := m.data }

/-- Mirrors `Memory::incr`: read-modify-write with 8-bit wraparound
(`wrapping_add(1)`). -/
def Memory.incr (m : Memory) : Option Memory :=
  m.read.bind fun v => m.set ((v + 1) % 256)

/-- Mirrors `Memory::decr`: read-modify-write with 8-bit wraparound
(`wrapping_sub(1)`). -/
def Memory.decr (m : Memory) : Option Memory :=
  m.read.bind fun v => m.set ((v + 255) % 256)

/-- Counter update of the forward bracket scan in `main` (`Op::Open` arm):
an `Open` increments `n_brackets`, a `Close` decrements it. -/
def bumpClose (op : Op) (n : Nat) : Nat :=
  if op = Op.Open then n + 1 else if op = Op.Close then n - 1 else n

/-- Counter update of the backward bracket scan in `main` (`Op::Close` arm):
a `Close` increments `n_brackets`, an `Open` decrements it. -/
def bumpOpen (op : Op) (n : Nat) : Nat :=
  if op = Op.Close then n + 1 else if op = Op.Open then n - 1 else n

/-- Fuelled worker for the forward scan; the fuel only bounds the recursion,
`scanClose` supplies enough fuel that exhaustion coincides with running off
the end of the program (where the source panics in `OpList::get`). -/
def scanCloseGo (ops : List Op) : Nat → Nat → Nat → Option Nat
  | 0, _, _ => none
  | fuel + 1, pos, n =>
    match ops[pos]? with
    | none => none
    | some op =>
      if op = Op.Close ∧ n = 0 then some pos
      else scanCloseGo ops fuel (pos + 1) (bumpClose op n)

/-- The forward scan of the `Op::Open` arm in `main`: starting at `pos` with
bracket counter `n`, find the stopping position of
`while op_list.get() != Op::Close || n_brackets != 0`.  Returns `none` when
the scan runs off the end of the program (the source panics there). -/
def scanClose (ops : List Op) (pos n : Nat) : Option Nat :=
  scanCloseGo ops (ops.length - pos) pos n

/-- Fuelled worker for the backward scan. -/
def scanOpenGo (ops : List Op) : Nat → Nat → Nat → Option Nat
  | 0, _, _ => none
  | fuel + 1, pos, n =>
    match ops[pos]? with
    | none => none
    | some op =>
      if op = Op.Open ∧ n = 0 then some pos
      else if pos = 0 then none
      else scanOpenGo ops fuel (pos - 1) (bumpOpen op n)

/-- The backward scan of the `Op::Close` arm in `main`: starting at `pos`
with bracket counter `n`, find the stopping position of
`while op_list.get() != Op::Open || n_brackets != 0`.  Returns `none` when
the position would underflow below 0 (the source panics on the `usize`
decrement or the subsequent indexing). -/
def scanOpen (ops : List Op) (pos n : Nat) : Option Nat :=
  scanOpenGo ops (pos + 1) pos n

/-- Run-time failure conditions, each modelling a panic of the source. -/
inductive RunError where
  | pointerUnderflow
  | cellOutOfBounds
  | scanOutOfBounds
  | posOutOfBounds
deriving DecidableEq

/-- Why the run loop stopped (spec section 6 run summary). -/
inductive HaltReason where
  | completed
  | stepLimitReached
  | fatal (e : RunError)
deriving DecidableEq

/-- The transient execution state of `main`: memory, `op_list.pos`, the
remaining input bytes (in consumption order: the source stores the input
reversed and pops from the back, which consumes the original front first),
the accumulated output bytes, and `total_ops`. -/
structure EngineState where
  mem : Memory
  pos : Nat
  input : List Nat
  output : List Nat
  steps : Nat
deriving DecidableEq

/-- The dispatch on one instruction (the `match op` in `main`), before the
unconditional position advance and step-count increment. -/
def exec (ops : List Op) (op : Op) (s : EngineState) : Except RunError EngineState :=
  match op with
  | .Left =>
    match s.mem.left with
    | none => .error .pointerUnderflow
    | some m => .ok { s with mem := m }
  | .Right => .ok { s with mem := s.mem.right }
  | .Incr =>
    match s.mem.incr with
    | none => .error .cellOutOfBounds
    | some m => .ok { s with mem := m }
  | .Decr =>
    match s.mem.decr with
    | none => .error .cellOutOfBounds
    | some m => .ok { s with mem := m }
  | .Out =>
    match s.mem.read with
    | none => .error .cellOutOfBounds
    | some v => .ok { s with output := s.output ++ [v] }
  | .In =>
    match s.input with
    | [] => .ok s
    | c :: rest =>
      match s.mem.set (c % 256) with
      | none => .error .cellOutOfBounds
      | some m => .ok { s with mem := m, input := rest }
  | .Open =>
    match s.mem.read with
    | none => .error .cellOutOfBounds
    | some v =>
      if v = 0 then
        match scanClose ops (s.pos + 1) 0 with
        | none => .error .scanOutOfBounds
        | some q => .ok { s with pos := q }
      else .ok s
  | .Close =>
    match s.mem.read with
    | none => .error .cellOutOfBounds
    | some v =>
      if v = 0 then .ok s
      else
        if s.pos = 0 then .error .scanOutOfBounds
        else
          match scanOpen ops (s.pos - 1) 0 with
          | none => .error .scanOutOfBounds
          | some p => .ok { s with pos := p }

/-- One iteration of the run loop body: fetch the instruction at the current
position (`OpList::get`), dispatch it, then advance the position by one and
increment `total_ops` unconditionally. -/
def step (ops : List Op) (s : EngineState) : Except RunError EngineState :=
  match ops[s.pos]? with
  | none => .error .posOutOfBounds
  | some op =>
    match exec ops op s with
    | .error e => .error e
    | .ok t => .ok { t with pos := t.pos + 1, steps := t.steps + 1 }

/-- Iterate `step` a given number of times, propagating failures. -/
def stepN (ops : List Op) : Nat → EngineState → Except RunError EngineState
  | 0, s => .ok s
  | n + 1, s =>
    match step ops s with
    | .error e => .error e
    | .ok t => stepN ops n t

/-- The step-budget half of the loop condition,
`max_steps.map(|limit| total_ops < limit).unwrap_or(true)`. -/
def underLimit (maxSteps : Option Nat) (steps : Nat) : Bool :=
  match maxSteps with
  | none => true
  | some k => steps < k

/-- The run loop of `main`:
`while op_list.pos < op_list.ops.len() && max_steps.map(|limit| total_ops < limit).unwrap_or(true)`.
The extra fuel argument only makes the recursion well-founded; `none` means
the fuel ran out before the loop stopped. -/
def run (ops : List Op) (maxSteps : Option Nat) : Nat → EngineState → Option (HaltReason × EngineState)
  | 0, _ => none
  | fuel + 1, s =>
    if s.pos < ops.length then
      if underLimit maxSteps s.steps then
        match step ops s with
        | .error e => some (.fatal e, s)
        | .ok t => run ops maxSteps fuel t
      else some (.stepLimitReached, s)
    else some (.completed, s)

/-- Mirrors `Op::from_char`; `none` models the `unreachable!` panic on an
illegal character. -/
def Op.fromChar (c : Char) : Option Op :=
  if c = '<' then some .Left
  else if c = '>' then some .Right
  else if c = '+' then some .Incr
  else if c = '-' then some .Decr
  else if c = '.' then some .Out
  else if c = ',' then some .In
  else if c = '[' then some .Open
  else if c = ']' then some .Close
  else none

/-- Mirrors `OpList::new` applied to an already filtered character sequence:
every character is mapped through `Op::from_char`.  Note that no bracket
validation of any kind is performed. -/
def progOfChars (cs : List Char) : Option (List Op) :=
  cs.mapM Op.fromChar

/-- Net bracket depth of the first `j` instructions: the number of `Open`
minus the number of `Close` among them. -/
def preSum (ops : List Op) : Nat → Int
  | 0 => 0
  | j + 1 =>
    preSum ops j +
      (match ops[j]? with
       | some Op.Open => 1
       | some Op.Close => -1
       | _ => 0)

/-- Modelled from the spec (section 3, Program invariant): a program is
well formed when the bracket depth of every prefix is nonnegative and the
total depth is zero. -/
def Balanced (ops : List Op) : Prop :=
  (∀ j < ops.length + 1, 0 ≤ preSum ops j) ∧ preSum ops ops.length = 0

instance : DecidablePred Balanced := fun _ => by
  unfold Balanced; infer_instance

/-- Modelled from the spec (section 3): positions `p < q` form a matched
`Open`/`Close` pair under the standard nested-parenthesis rules, phrased by
depth counts: the depth just after `q` returns to the depth just before
`p`, and in between the depth never drops back to it. -/
def matchedPair (ops : List Op) (p q : Nat) : Prop :=
  ops[p]? = some Op.Open ∧ ops[q]? = some Op.Close ∧ p < q ∧
  preSum ops (q + 1) = preSum ops p ∧
  ∀ j < q + 1, p < j → preSum ops (p + 1) ≤ preSum ops j

instance (ops : List Op) (p q : Nat) : Decidable (matchedPair ops p q) := by
  unfold matchedPair; infer_instance

/-- N-fold increment on the tape. -/
def Memory.incrN : Nat → Memory → Option Memory
  | 0, m => some m
  | n + 1, m => m.incr.bind (Memory.incrN n)

/-- N-fold decrement on the tape. -/
def Memory.decrN : Nat → Memory → Option Memory
  | 0, m => some m
  | n + 1, m => m.decr.bind (Memory.decrN n)

/-- N-fold rightward move on the tape. -/
def Memory.rightN : Nat → Memory → Memory
  | 0, m => m
  | n + 1, m => Memory.rightN n m.right

/-! ### Basic lemmas -/

theorem lt_length_of_get? {α : Type} {l : List α} {i : Nat} {a : α}
    (h : l[i]? = some a) : i < l.length := by
  rcases List.getElem?_eq_some.mp h with ⟨h1, _⟩
  exact h1

theorem preSum_zero (ops : List Op) : preSum ops 0 = 0 := rfl

theorem preSum_succ_open {ops : List Op} {j : Nat} (h : ops[j]? = some Op.Open) :
    preSum ops (j + 1) = preSum ops j + 1 := by
  simp [preSum, h]

theorem preSum_succ_close {ops : List Op} {j : Nat} (h : ops[j]? = some Op.Close) :
    preSum ops (j + 1) = preSum ops j - 1 := by
  simp [preSum, h]
  omega

theorem preSum_succ_other {ops : List Op} {j : Nat} {op : Op} (h : ops[j]? = some op)
    (h1 : op ≠ Op.Open) (h2 : op ≠ Op.Close) : preSum ops (j + 1) = preSum ops j := by
  cases op <;> simp_all [preSum]

theorem close_of_preSum_lt {ops : List Op} {a : Nat}
    (h : preSum ops (a + 1) < preSum ops a) :
    ops[a]? = some Op.Close ∧ preSum ops (a + 1) = preSum ops a - 1 := by
  cases hop : ops[a]? with
  | none => simp [preSum, hop] at h
  | some op =>
    cases op <;> simp_all [preSum]
    omega

theorem open_of_preSum_gt {ops : List Op} {a : Nat}
    (h : preSum ops a < preSum ops (a + 1)) :
    ops[a]? = some Op.Open ∧ preSum ops (a + 1) = preSum ops a + 1 := by
  cases hop : ops[a]? with
  | none => simp [preSum, hop] at h
  | some op => cases op <;> simp_all [preSum]

/-! ### Unfolding lemmas for the bracket scans -/

theorem scanClose_step {ops : List Op} {pos n : Nat} {op : Op}
    (hop : ops[pos]? = some op) :
    scanClose ops pos n =
      if op = Op.Close ∧ n = 0 then some pos
      else scanClose ops (pos + 1) (bumpClose op n) := by
  have hlt : pos < ops.length := lt_length_of_get? hop
  have h1 : ops.length - pos = (ops.length - (pos + 1)) + 1 := by omega
  rw [scanClose, h1, scanCloseGo, hop]
  rfl

theorem scanOpen_step {ops : List Op} {pos n : Nat} {op : Op}
    (hop : ops[pos]? = some op) :
    scanOpen ops pos n =
      if op = Op.Open ∧ n = 0 then some pos
      else if pos = 0 then none
      else scanOpen ops (pos - 1) (bumpOpen op n) := by
  rw [scanOpen, scanOpenGo, hop]
  by_cases h1 : op = Op.Open ∧ n = 0
  · simp [h1]
  · by_cases h0 : pos = 0
    · simp [h1, h0]
    · have hp : pos = (pos - 1) + 1 := by omega
      simp only [h1, h0, if_neg, if_false]
      rw [scanOpen, ← hp]

/-! ### Completeness of the two bracket scans: starting from the right
counter value, each scan reaches the designated partner position. -/

theorem scanClose_complete (ops : List Op) :
    ∀ (k pos n q : Nat), q - pos = k → pos ≤ q → ops[q]? = some Op.Close →
    (n : Int) = preSum ops pos - preSum ops q →
    (∀ j, pos ≤ j → j < q → ops[j]? = some Op.Close → preSum ops j ≠ preSum ops q) →
    scanClose ops pos n = some q := by
  intro k
  induction k with
  | zero =>
    intro pos n q hk hle hq hn _
    have hpq : pos = q := by omega
    subst hpq
    have hn0 : n = 0 := by omega
    rw [scanClose_step hq, hn0]
    simp
  | succ k ih =>
    intro pos n q hk hle hq hn hmin
    have hlt : pos < q := by omega
    have hqlen : q < ops.length := lt_length_of_get? hq
    have hposlen : pos < ops.length := by omega
    obtain ⟨op, hop⟩ : ∃ op, ops[pos]? = some op :=
      ⟨_, List.getElem?_eq_getElem hposlen⟩
    rw [scanClose_step hop]
    by_cases hcl : op = Op.Close
    · subst hcl
      have hne : preSum ops pos ≠ preSum ops q := hmin pos (Nat.le_refl pos) hlt hop
      have hnz : n ≠ 0 := by
        intro h0
        rw [h0] at hn
        omega
      rw [if_neg (by simp [hnz])]
      have hps : preSum ops (pos + 1) = preSum ops pos - 1 := preSum_succ_close hop
      apply ih (pos + 1) (bumpClose Op.Close n) q (by omega) (by omega) hq
      · have hb : bumpClose Op.Close n = n - 1 := by simp [bumpClose]
        rw [hb]
        omega
      · intro j h1 h2 hj
        exact hmin j (by omega) h2 hj
    · rw [if_neg (by simp [hcl])]
      by_cases hon : op = Op.Open
      · subst hon
        have hps : preSum ops (pos + 1) = preSum ops pos + 1 := preSum_succ_open hop
        apply ih (pos + 1) (bumpClose Op.Open n) q (by omega) (by omega) hq
        · have hb : bumpClose Op.Open n = n + 1 := by simp [bumpClose]
          rw [hb]
          omega
        · intro j h1 h2 hj
          exact hmin j (by omega) h2 hj
      · have hps : preSum ops (pos + 1) = preSum ops pos :=
          preSum_succ_other hop hon hcl
        have hb : bumpClose op n = n := by simp [bumpClose, hon, hcl]
        rw [hb]
        apply ih (pos + 1) n q (by omega) (by omega) hq
        · omega
        · intro j h1 h2 hj
          exact hmin j (by omega) h2 hj

theorem scanOpen_complete (ops : List Op) :
    ∀ (k pos n p : Nat), pos - p = k → p ≤ pos → pos < ops.length → ops[p]? = some Op.Open →
    (n : Int) = preSum ops (pos + 1) - preSum ops (p + 1) →
    (∀ j, p < j → j ≤ pos → ops[j]? = some Op.Open → preSum ops (j + 1) ≠ preSum ops (p + 1)) →
    scanOpen ops pos n = some p := by
  intro k
  induction k with
  | zero =>
    intro pos n p hk hle _ hp hn _
    have hpq : pos = p := by omega
    subst hpq
    have hn0 : n = 0 := by omega
    rw [scanOpen_step hp, hn0]
    simp
  | succ k ih =>
    intro pos n p hk hle hlen hp hn hmin
    have hlt : p < pos := by omega
    obtain ⟨op, hop⟩ : ∃ op, ops[pos]? = some op :=
      ⟨_, List.getElem?_eq_getElem hlen⟩
    rw [scanOpen_step hop]
    have hp1 : (pos - 1) + 1 = pos := by omega
    by_cases hon : op = Op.Open
    · subst hon
      have hne : preSum ops (pos + 1) ≠ preSum ops (p + 1) :=
        hmin pos hlt (Nat.le_refl pos) hop
      have hnz : n ≠ 0 := by
        intro h0
        rw [h0] at hn
        omega
      rw [if_neg (by simp [hnz]), if_neg (by omega)]
      have hps : preSum ops (pos + 1) = preSum ops pos + 1 := preSum_succ_open hop
      have hb : bumpOpen Op.Open n = n - 1 := by simp [bumpOpen]
      rw [hb]
      apply ih (pos - 1) (n - 1) p (by omega) (by omega) (by omega) hp
      · rw [hp1]
        omega
      · intro j h1 h2 hj
        exact hmin j h1 (by omega) hj
    · rw [if_neg (by simp [hon]), if_neg (by omega)]
      by_cases hcl : op = Op.Close
      · subst hcl
        have hps : preSum ops (pos + 1) = preSum ops pos - 1 := preSum_succ_close hop
        have hb : bumpOpen Op.Close n = n + 1 := by simp [bumpOpen]
        rw [hb]
        apply ih (pos - 1) (n + 1) p (by omega) (by omega) (by omega) hp
        · rw [hp1]
          omega
        · intro j h1 h2 hj
          exact hmin j h1 (by omega) hj
      · have hps : preSum ops (pos + 1) = preSum ops pos :=
          preSum_succ_other hop hon hcl
        have hb : bumpOpen op n = n := by simp [bumpOpen, hon, hcl]
        rw [hb]
        apply ih (pos - 1) n p (by omega) (by omega) (by omega) hp
        · rw [hp1]
          omega
        · intro j h1 h2 hj
          exact hmin j h1 (by omega) hj

/-! ### Soundness of the forward scan: whatever position it returns is a
`Close` at the right depth, and no earlier `Close` at that depth exists. -/

theorem scanCloseGo_sound (ops : List Op) :
    ∀ (fuel pos n q : Nat), scanCloseGo ops fuel pos n = some q →
    pos ≤ q ∧ ops[q]? = some Op.Close ∧
    preSum ops q = preSum ops pos - n ∧
    ∀ j, pos ≤ j → j < q → ops[j]? = some Op.Close →
      preSum ops j ≠ preSum ops pos - n := by
  intro fuel
  induction fuel with
  | zero =>
    intro pos n q h
    simp [scanCloseGo] at h
  | succ fuel ih =>
    intro pos n q h
    rw [scanCloseGo] at h
    split at h
    next => cases h
    next op hop =>
      by_cases hstop : op = Op.Close ∧ n = 0
      · rw [if_pos hstop] at h
        cases h
        obtain ⟨hcl, hn0⟩ := hstop
        subst hcl hn0
        refine ⟨Nat.le_refl pos, hop, by omega, ?_⟩
        intro j h1 h2 _
        omega
      · rw [if_neg hstop] at h
        obtain ⟨hle, hqc, hpre, hmin⟩ := ih (pos + 1) (bumpClose op n) q h
        by_cases hcl : op = Op.Close
        · subst hcl
          have hnz : n ≠ 0 := fun h0 => hstop ⟨rfl, h0⟩
          have hb : bumpClose Op.Close n = n - 1 := by simp [bumpClose]
          have hps : preSum ops (pos + 1) = preSum ops pos - 1 := preSum_succ_close hop
          rw [hb] at hpre hmin
          refine ⟨by omega, hqc, by omega, ?_⟩
          intro j h1 h2 hj
          rcases Nat.eq_or_lt_of_le h1 with heq | hlt2
          · subst heq
            omega
          · have := hmin j (by omega) h2 hj
            omega
        · by_cases hon : op = Op.Open
          · subst hon
            have hb : bumpClose Op.Open n = n + 1 := by simp [bumpClose]
            have hps : preSum ops (pos + 1) = preSum ops pos + 1 := preSum_succ_open hop
            rw [hb] at hpre hmin
            refine ⟨by omega, hqc, by omega, ?_⟩
            intro j h1 h2 hj
            rcases Nat.eq_or_lt_of_le h1 with heq | hlt2
            · subst heq
              rw [hj] at hop
              cases hop
            · have := hmin j (by omega) h2 hj
              omega
          · have hb : bumpClose op n = n := by simp [bumpClose, hon, hcl]
            have hps : preSum ops (pos + 1) = preSum ops pos :=
              preSum_succ_other hop hon hcl
            rw [hb] at hpre hmin
            refine ⟨by omega, hqc, by omega, ?_⟩
            intro j h1 h2 hj
            rcases Nat.eq_or_lt_of_le h1 with heq | hlt2
            · subst heq
              rw [hj] at hop
              cases hop
              exact absurd rfl hcl
            · have := hmin j (by omega) h2 hj
              omega

theorem scanClose_sound {ops : List Op} {pos n q : Nat}
    (h : scanClose ops pos n = some q) :
    pos ≤ q ∧ ops[q]? = some Op.Close ∧
    preSum ops q = preSum ops pos - n ∧
    ∀ j, pos ≤ j → j < q → ops[j]? = some Op.Close →
      preSum ops j ≠ preSum ops pos - n :=
  scanCloseGo_sound ops (ops.length - pos) pos n q h

/-! ### Discrete crossing lemmas for the depth count -/

theorem first_close_below (ops : List Op) (c : Int) :
    ∀ (k a b : Nat), b - a = k → a ≤ b → c < preSum ops a → preSum ops b ≤ c →
    ∃ j, a ≤ j ∧ j < b ∧ ops[j]? = some Op.Close ∧ preSum ops j = c + 1 ∧
      preSum ops (j + 1) = c ∧ ∀ i, a ≤ i → i ≤ j → c < preSum ops i := by
  intro k
  induction k with
  | zero =>
    intro a b hk hle ha hb
    have : a = b := by omega
    subst this
    omega
  | succ k ih =>
    intro a b hk hle ha hb
    have hab : a < b := by
      rcases Nat.eq_or_lt_of_le hle with heq | h
      · subst heq
        omega
      · exact h
    by_cases h1 : preSum ops (a + 1) ≤ c
    · have hlt : preSum ops (a + 1) < preSum ops a := by omega
      obtain ⟨hcl, heq⟩ := close_of_preSum_lt hlt
      refine ⟨a, Nat.le_refl a, hab, hcl, by omega, by omega, ?_⟩
      intro i hi1 hi2
      have : i = a := by omega
      subst this
      exact ha
    · obtain ⟨j, hj1, hj2, hj3, hj4, hj5, hj6⟩ :=
        ih (a + 1) b (by omega) (by omega) (by omega) hb
      refine ⟨j, by omega, hj2, hj3, hj4, hj5, ?_⟩
      intro i hi1 hi2
      rcases Nat.eq_or_lt_of_le hi1 with heq | h
      · subst heq
        exact ha
      · exact hj6 i (by omega) hi2

theorem last_open_above (ops : List Op) (c : Int) :
    ∀ (k a b : Nat), b - a = k → a ≤ b → preSum ops a ≤ c → c < preSum ops b →
    ∃ j, a ≤ j ∧ j < b ∧ ops[j]? = some Op.Open ∧ preSum ops j = c ∧
      preSum ops (j + 1) = c + 1 ∧ ∀ i, j < i → i ≤ b → c < preSum ops i := by
  intro k
  induction k with
  | zero =>
    intro a b hk hle ha hb
    have : a = b := by omega
    subst this
    omega
  | succ k ih =>
    intro a b hk hle ha hb
    have hab : a < b := by
      rcases Nat.eq_or_lt_of_le hle with heq | h
      · subst heq
        omega
      · exact h
    have hb1 : (b - 1) + 1 = b := by omega
    by_cases h1 : preSum ops (b - 1) ≤ c
    · have hgt : preSum ops (b - 1) < preSum ops ((b - 1) + 1) := by
        rw [hb1]
        omega
      obtain ⟨hopn, heq⟩ := open_of_preSum_gt hgt
      rw [hb1] at heq
      refine ⟨b - 1, by omega, by omega, hopn, by omega, by rw [hb1]; omega, ?_⟩
      intro i hi1 hi2
      have : i = b := by omega
      subst this
      exact hb
    · obtain ⟨j, hj1, hj2, hj3, hj4, hj5, hj6⟩ :=
        ih a (b - 1) (by omega) (by omega) ha (by omega)
      refine ⟨j, hj1, by omega, hj3, hj4, hj5, ?_⟩
      intro i hi1 hi2
      rcases Nat.lt_or_ge i b with h | h
      · exact hj6 i hi1 (by omega)
      · have : i = b := by omega
        subst this
        exact hb

/-! ### The scans and the matched-pair relation agree -/

theorem matchedPair_preSum {ops : List Op} {p q : Nat} (h : matchedPair ops p q) :
    preSum ops (p + 1) = preSum ops p + 1 ∧ preSum ops q = preSum ops p + 1 ∧
    preSum ops (q + 1) = preSum ops p := by
  obtain ⟨hp, hq, _, h4, _⟩ := h
  have h1 := preSum_succ_open hp
  have h2 := preSum_succ_close hq
  refine ⟨h1, by omega, h4⟩

theorem matched_scanClose {ops : List Op} {p q : Nat} (h : matchedPair ops p q) :
    scanClose ops (p + 1) 0 = some q := by
  obtain ⟨hps1, hps2, hps3⟩ := matchedPair_preSum h
  obtain ⟨hp, hq, hpq, h4, h5⟩ := h
  apply scanClose_complete ops (q - (p + 1)) (p + 1) 0 q rfl (by omega) hq (by omega)
  intro j h1 h2 hj
  have hjc : preSum ops (j + 1) = preSum ops j - 1 := preSum_succ_close hj
  have hj1 : preSum ops (p + 1) ≤ preSum ops (j + 1) := h5 (j + 1) (by omega) (by omega)
  omega

theorem matched_scanOpen {ops : List Op} {p q : Nat} (h : matchedPair ops p q) :
    scanOpen ops (q - 1) 0 = some p := by
  obtain ⟨hps1, hps2, hps3⟩ := matchedPair_preSum h
  obtain ⟨hp, hq, hpq, h4, h5⟩ := h
  have hqlen : q < ops.length := lt_length_of_get? hq
  have hq1 : (q - 1) + 1 = q := by omega
  apply scanOpen_complete ops ((q - 1) - p) (q - 1) 0 p rfl (by omega) (by omega) hp
  · rw [hq1]
    omega
  · intro j h1 h2 hj
    have hjo : preSum ops (j + 1) = preSum ops j + 1 := preSum_succ_open hj
    have hj1 : preSum ops (p + 1) ≤ preSum ops j := h5 j (by omega) h1
    omega

theorem exists_matched_of_open {ops : List Op} {p : Nat} (hbal : Balanced ops)
    (hp : ops[p]? = some Op.Open) : ∃ q, matchedPair ops p q := by
  have hplen : p < ops.length := lt_length_of_get? hp
  have h1 : preSum ops (p + 1) = preSum ops p + 1 := preSum_succ_open hp
  obtain ⟨q, hq1, hq2, hq3, hq4, hq5, hq6⟩ :=
    first_close_below ops (preSum ops p) (ops.length - (p + 1)) (p + 1) ops.length rfl
      (by omega) (by omega)
      (by rw [hbal.2]; exact hbal.1 p (by omega))
  refine ⟨q, hp, hq3, by omega, by omega, ?_⟩
  intro j hj1 hj2
  have := hq6 j (by omega) (by omega)
  omega

theorem exists_matched_of_close {ops : List Op} {q : Nat} (hbal : Balanced ops)
    (hq : ops[q]? = some Op.Close) : ∃ p, matchedPair ops p q := by
  have hqlen : q < ops.length := lt_length_of_get? hq
  have h1 : preSum ops (q + 1) = preSum ops q - 1 := preSum_succ_close hq
  obtain ⟨p, hp1, hp2, hp3, hp4, hp5, hp6⟩ :=
    last_open_above ops (preSum ops (q + 1)) q 0 q (by omega) (by omega)
      (by rw [preSum_zero]; exact hbal.1 (q + 1) (by omega))
      (by omega)
  refine ⟨p, hp3, hq, hp2, by omega, ?_⟩
  intro j hj1 hj2
  rcases Nat.lt_or_ge j (q + 1) with h | h
  · rcases Nat.lt_or_ge j q with hjq | hjq
    · have := hp6 j hj2 (by omega)
      omega
    · have : j = q := by omega
      subst this
      omega
  · omega

/-- A successful forward scan started just after an `Open` lands on the
matching `Close` in the sense of `matchedPair`. -/
theorem scanClose_matched {ops : List Op} {p q : Nat}
    (hp : ops[p]? = some Op.Open) (h : scanClose ops (p + 1) 0 = some q) :
    matchedPair ops p q := by
  obtain ⟨hle, hqc, hpre, hmin⟩ := scanClose_sound h
  have hps : preSum ops (p + 1) = preSum ops p + 1 := preSum_succ_open hp
  have hqs : preSum ops (q + 1) = preSum ops q - 1 := preSum_succ_close hqc
  refine ⟨hp, hqc, by omega, by omega, ?_⟩
  intro j hj1 hj2
  by_contra hcon
  push_neg at hcon
  obtain ⟨j2, h1, h2, h3, h4, h5, _⟩ :=
    first_close_below ops (preSum ops p) (j - (p + 1)) (p + 1) j rfl
      (by omega) (by omega) (by omega)
  have := hmin j2 (by omega) (by omega) h3
  omega

/-! ### Memory lemmas -/

theorem right_of_lt {m : Memory} (h : m.ptr < m.data.length) :
    m.right = ⟨m.ptr + 1, m.data⟩ := by
  unfold Memory.right
  rw [if_neg (by omega)]

theorem rightN_of_le (k : Nat) :
    ∀ m : Memory, m.ptr + k ≤ m.data.length → Memory.rightN k m = ⟨m.ptr + k, m.data⟩ := by
  induction k with
  | zero =>
    intro m _
    rfl
  | succ k ih =>
    intro m h
    have h1 : m.right = ⟨m.ptr + 1, m.data⟩ := right_of_lt (by omega)
    calc Memory.rightN (k + 1) m = Memory.rightN k m.right := rfl
      _ = ⟨m.ptr + 1 + k, m.data⟩ := by rw [h1]; exact ih ⟨m.ptr + 1, m.data⟩ (by simp; omega)
      _ = ⟨m.ptr + (k + 1), m.data⟩ := by rw [Nat.add_assoc, Nat.add_comm 1 k]

theorem incrN_read (N : Nat) :
    ∀ (m : Memory) (v : Nat), m.ptr < m.data.length → v < 256 → m.read = some v →
    ∃ m2, Memory.incrN N m = some m2 ∧ m2.read = some ((v + N) % 256) ∧
      m2.ptr = m.ptr ∧ m2.data.length = m.data.length := by
  induction N with
  | zero =>
    intro m v hlt hv hr
    refine ⟨m, rfl, ?_, rfl, rfl⟩
    rw [hr, Nat.mod_eq_of_lt (by omega), Nat.add_zero]
  | succ N ih =>
    intro m v hlt hv hr
    have hset : m.set ((v + 1) % 256) =
        some ⟨m.ptr, m.data.set m.ptr ((v + 1) % 256)⟩ := by
      unfold Memory.set
      rw [if_pos hlt]
    have hstep : m.incr = some ⟨m.ptr, m.data.set m.ptr ((v + 1) % 256)⟩ := by
      unfold Memory.incr
      rw [hr]
      exact hset
    have hread : (⟨m.ptr, m.data.set m.ptr ((v + 1) % 256)⟩ : Memory).read =
        some ((v + 1) % 256) := by
      unfold Memory.read
      exact List.getElem?_set_self hlt
    obtain ⟨m2, h1, h2, h3, h4⟩ :=
      ih ⟨m.ptr, m.data.set m.ptr ((v + 1) % 256)⟩ ((v + 1) % 256)
        (by simp [hlt]) (Nat.mod_lt _ (by omega)) hread
    refine ⟨m2, ?_, ?_, by simp_all, by simp_all⟩
    · unfold Memory.incrN
      rw [hstep]
      exact h1
    · rw [h2, Nat.mod_add_mod]
      congr 1
      omega

theorem decrN_read (N : Nat) :
    ∀ (m : Memory) (v : Nat), m.ptr < m.data.length → v < 256 → m.read = some v →
    ∃ m2, Memory.decrN N m = some m2 ∧ m2.read = some ((v + 255 * N) % 256) ∧
      m2.ptr = m.ptr ∧ m2.data.length = m.data.length := by
  induction N with
  | zero =>
    intro m v hlt hv hr
    refine ⟨m, rfl, ?_, rfl, rfl⟩
    rw [hr]
    congr 1
    rw [Nat.mul_zero, Nat.add_zero, Nat.mod_eq_of_lt (by omega)]
  | succ N ih =>
    intro m v hlt hv hr
    have hset : m.set ((v + 255) % 256) =
        some ⟨m.ptr, m.data.set m.ptr ((v + 255) % 256)⟩ := by
      unfold Memory.set
      rw [if_pos hlt]
    have hstep : m.decr = some ⟨m.ptr, m.data.set m.ptr ((v + 255) % 256)⟩ := by
      unfold Memory.decr
      rw [hr]
      exact hset
    have hread : (⟨m.ptr, m.data.set m.ptr ((v + 255) % 256)⟩ : Memory).read =
        some ((v + 255) % 256) := by
      unfold Memory.read
      exact List.getElem?_set_self hlt
    obtain ⟨m2, h1, h2, h3, h4⟩ :=
      ih ⟨m.ptr, m.data.set m.ptr ((v + 255) % 256)⟩ ((v + 255) % 256)
        (by simp [hlt]) (Nat.mod_lt _ (by omega)) hread
    refine ⟨m2, ?_, ?_, by simp_all, by simp_all⟩
    · unfold Memory.decrN
      rw [hstep]
      exact h1
    · rw [h2, Nat.mod_add_mod]
      congr 1
      omega

/-! ### Claims about the tape -/

/-- C1 (code_bug evidence): contrary to the claim, moving right past the
current tape length does NOT append a growth block: starting from a fresh
tape, after `DEFAULT_MEMORY_CAPACITY` rightward moves the pointer has gone
exactly one past the last cell, the tape length is unchanged (no block of
zeros was appended when `ptr + 1` reached the length), and reading the
supposedly newly reachable cell fails (the source panics) instead of
reading 0.  The source grows only when `ptr >= len` holds before the move,
one move later than the claim states. -/
theorem new_length : (Memory.new).data.length = defaultCapacity := by
  unfold Memory.new
  exact List.length_replicate defaultCapacity 0

theorem rightN_capacity_new :
    Memory.rightN defaultCapacity Memory.new = ⟨defaultCapacity, Memory.new.data⟩ := by
  have h0 : Memory.new.ptr = 0 := rfl
  have := rightN_of_le defaultCapacity Memory.new (by rw [h0, new_length]; omega)
  rw [h0] at this
  simpa using this

theorem spec_C1 :
    (Memory.rightN defaultCapacity Memory.new).data.length = defaultCapacity ∧
    (Memory.rightN defaultCapacity Memory.new).ptr = defaultCapacity ∧
    (Memory.rightN defaultCapacity Memory.new).read = none := by
  rw [rightN_capacity_new]
  refine ⟨new_length, rfl, ?_⟩
  unfold Memory.read
  exact List.getElem?_eq_none (by rw [new_length])

/-- C2 (code_bug evidence): the claimed invariant `pointer < length` is
violated after a completed rightward move: from a fresh tape, after
`DEFAULT_MEMORY_CAPACITY` rightward moves the pointer equals the tape
length, so it is not a valid index and reading the current cell is out of
bounds (the source panics on the next `read`/`set`). -/
theorem spec_C2 :
    (Memory.rightN defaultCapacity Memory.new).ptr =
      (Memory.rightN defaultCapacity Memory.new).data.length ∧
    ¬ (Memory.rightN defaultCapacity Memory.new).ptr <
      (Memory.rightN defaultCapacity Memory.new).data.length := by
  rw [rightN_capacity_new]
  constructor
  · simp [new_length]
  · simp [new_length]

/-- C6: a leftward move at pointer 0 fails with the pointer-underflow
panic (and the run loop halts fatally on it, reporting PointerUnderflow);
at any positive pointer it decrements the pointer by exactly one and
changes nothing else. -/
theorem spec_C6 (m : Memory) (ops : List Op) (s : EngineState) (fuel : Nat) :
    (m.ptr = 0 → m.left = none) ∧
    (0 < m.ptr → m.left = some ⟨m.ptr - 1, m.data⟩) ∧
    (ops[s.pos]? = some Op.Left → s.mem.ptr = 0 →
      run ops none (fuel + 1) s = some (.fatal .pointerUnderflow, s)) := by
  refine ⟨?_, ?_, ?_⟩
  · intro h0
    unfold Memory.left
    rw [if_pos h0]
  · intro hpos
    unfold Memory.left
    rw [if_neg (by omega)]
  · intro hop h0
    have hlen : s.pos < ops.length := lt_length_of_get? hop
    have hleft : s.mem.left = none := by
      unfold Memory.left
      rw [if_pos h0]
    have hstep : step ops s = .error .pointerUnderflow := by
      unfold step exec
      rw [hop, hleft]
    unfold run
    rw [if_pos hlen, hstep]
    rfl

/-- Witness for C6 at a concrete memory and engine state. -/
theorem spec_C6_witness :
    (⟨0, [0]⟩ : Memory).left = none ∧
    (⟨3, [0, 0, 0, 0]⟩ : Memory).left = some ⟨2, [0, 0, 0, 0]⟩ ∧
    run [Op.Left] none 1 ⟨⟨0, [0]⟩, 0, [], [], 0⟩ =
      some (.fatal .pointerUnderflow, ⟨⟨0, [0]⟩, 0, [], [], 0⟩) :=
  ⟨(spec_C6 ⟨0, [0]⟩ [Op.Left] ⟨⟨0, [0]⟩, 0, [], [], 0⟩ 0).1 rfl,
   (spec_C6 ⟨3, [0, 0, 0, 0]⟩ [Op.Left] ⟨⟨0, [0]⟩, 0, [], [], 0⟩ 0).2.1 (by decide),
   (spec_C6 ⟨0, [0]⟩ [Op.Left] ⟨⟨0, [0]⟩, 0, [], [], 0⟩ 0).2.2 rfl rfl⟩

/-- C7: cell arithmetic wraps modulo 256 and never fails: from a
freshly-zeroed in-bounds cell, N increments succeed and leave the cell at
N mod 256, and N decrements succeed and leave it at (-N) mod 256. -/
theorem spec_C7 (m : Memory) (N : Nat) (hlt : m.ptr < m.data.length)
    (h0 : m.read = some 0) :
    (∃ m1, Memory.incrN N m = some m1 ∧ m1.read = some (N % 256)) ∧
    (∃ m2, Memory.decrN N m = some m2 ∧ m2.read = some ((256 - N % 256) % 256)) := by
  constructor
  · obtain ⟨m1, h1, h2, _, _⟩ := incrN_read N m 0 hlt (by omega) h0
    refine ⟨m1, h1, ?_⟩
    rw [h2]
    congr 1
    omega
  · obtain ⟨m2, h1, h2, _, _⟩ := decrN_read N m 0 hlt (by omega) h0
    refine ⟨m2, h1, ?_⟩
    rw [h2]
    congr 1
    omega

/-- Witness for C7: 300 increments of a zero cell give 44, 300 decrements
give 212. -/
theorem spec_C7_witness :
    (∃ m1, Memory.incrN 300 ⟨0, [0]⟩ = some m1 ∧ m1.read = some (300 % 256)) ∧
    (∃ m2, Memory.decrN 300 ⟨0, [0]⟩ = some m2 ∧
      m2.read = some ((256 - 300 % 256) % 256)) :=
  spec_C7 ⟨0, [0]⟩ 300 (by decide) (by decide)

/-! ### Engine step lemmas -/

theorem exec_ok_steps {ops : List Op} {op : Op} {s t : EngineState}
    (h : exec ops op s = .ok t) : t.steps = s.steps := by
  cases op <;>
    (simp only [exec] at h
     repeat' split at h
     all_goals try cases h
     all_goals rfl)

theorem exec_ok_pos {ops : List Op} {op : Op} {s t : EngineState}
    (h1 : op ≠ Op.Open) (h2 : op ≠ Op.Close) (h : exec ops op s = .ok t) :
    t.pos = s.pos := by
  cases op <;>
    first
    | exact absurd rfl h1
    | exact absurd rfl h2
    | (simp only [exec] at h
       repeat' split at h
       all_goals try cases h
       all_goals rfl)

theorem step_ok_steps {ops : List Op} {s t : EngineState} (h : step ops s = .ok t) :
    t.steps = s.steps + 1 := by
  unfold step at h
  split at h
  next => cases h
  next op hop =>
    cases hexec : exec ops op s with
    | error e => rw [hexec] at h; cases h
    | ok t2 =>
      rw [hexec] at h
      cases h
      have := exec_ok_steps hexec
      simp [this]

theorem stepN_succ_of_step {ops : List Op} {s t : EngineState} {n : Nat}
    (h : step ops s = .ok t) : stepN ops (n + 1) s = stepN ops n t := by
  simp [stepN, h]

/-- C3: when a `LoopOpen` executes with current cell 0 the engine jumps to
the matching `LoopClose` and the uniform advance lands it just past the
loop body; when a `LoopClose` executes with a nonzero cell the engine
jumps to the matching `LoopOpen` and the advance lands on the first body
instruction; and after every dispatch of any kind the position advances by
exactly one. -/
theorem spec_C3 (ops : List Op) (s : EngineState) :
    (∀ q, ops[s.pos]? = some Op.Open → s.mem.read = some 0 → matchedPair ops s.pos q →
      step ops s = .ok ⟨s.mem, q + 1, s.input, s.output, s.steps + 1⟩) ∧
    (∀ p v, ops[s.pos]? = some Op.Close → s.mem.read = some v → v ≠ 0 →
      matchedPair ops p s.pos →
      step ops s = .ok ⟨s.mem, p + 1, s.input, s.output, s.steps + 1⟩) ∧
    (∀ op t, ops[s.pos]? = some op → op ≠ Op.Open → op ≠ Op.Close →
      step ops s = .ok t → t.pos = s.pos + 1) ∧
    (∀ v, ops[s.pos]? = some Op.Open → s.mem.read = some v → v ≠ 0 →
      step ops s = .ok ⟨s.mem, s.pos + 1, s.input, s.output, s.steps + 1⟩) ∧
    (ops[s.pos]? = some Op.Close → s.mem.read = some 0 →
      step ops s = .ok ⟨s.mem, s.pos + 1, s.input, s.output, s.steps + 1⟩) := by
  refine ⟨?_, ?_, ?_, ?_, ?_⟩
  · intro q hop hr hm
    have hscan := matched_scanClose hm
    simp [step, exec, hop, hr, hscan]
  · intro p v hop hr hv hm
    have hne : ¬ s.pos = 0 := by
      have := hm.2.2.1
      omega
    have hscan := matched_scanOpen hm
    simp [step, exec, hop, hr, hv, hne, hscan]
  · intro op t hop h1 h2 hstep
    unfold step at hstep
    split at hstep
    next => cases hstep
    next op2 hop2 =>
      rw [hop] at hop2
      cases hop2
      cases hexec : exec ops op s with
      | error e => rw [hexec] at hstep; cases hstep
      | ok t2 =>
        rw [hexec] at hstep
        cases hstep
        have := exec_ok_pos h1 h2 hexec
        simp [this]
  · intro v hop hr hv
    simp [step, exec, hop, hr, hv]
  · intro hop hr
    simp [step, exec, hop, hr]

/-- Witness for C3: in the program consisting of an `Open`, an `Incr` and a
`Close`, the `Open` at position 0 taken with cell 0 jumps past the `Close`
at position 2, landing at position 3. -/
theorem spec_C3_witness :
    matchedPair [Op.Open, Op.Incr, Op.Close] 0 2 ∧
    step [Op.Open, Op.Incr, Op.Close] ⟨⟨0, [0]⟩, 0, [], [], 0⟩ =
      .ok ⟨⟨0, [0]⟩, 3, [], [], 1⟩ :=
  ⟨by decide,
   (spec_C3 [Op.Open, Op.Incr, Op.Close] ⟨⟨0, [0]⟩, 0, [], [], 0⟩).1 2
     (by decide) (by decide) (by decide)⟩

/-- C5 (amended): program construction performs no bracket validation and
cannot fail; an unmatched `LoopOpen` is only detected if it is ever taken
with current cell 0, in which case the forward scan runs off the end of
the program and execution aborts fatally at that step. -/
theorem spec_C5 (ops : List Op) (s : EngineState)
    (hop : ops[s.pos]? = some Op.Open) (h0 : s.mem.read = some 0)
    (hnm : ∀ q < ops.length, ¬ matchedPair ops s.pos q) :
    step ops s = .error .scanOutOfBounds := by
  have hscan : scanClose ops (s.pos + 1) 0 = none := by
    cases h : scanClose ops (s.pos + 1) 0 with
    | none => rfl
    | some q =>
      have hm := scanClose_matched hop h
      have hqlen := lt_length_of_get? hm.2.1
      exact absurd hm (hnm q hqlen)
  simp [step, exec, hop, h0, hscan]

/-- Witness for C5 (amended): the single-instruction program `[` steps to a
fatal scan error when its unmatched bracket is taken. -/
theorem spec_C5_witness :
    step [Op.Open] ⟨⟨0, [0]⟩, 0, [], [], 0⟩ = .error .scanOutOfBounds :=
  spec_C5 [Op.Open] ⟨⟨0, [0]⟩, 0, [], [], 0⟩ (by decide) (by decide) (by decide)

/-- Counterexample to C5 as stated: the bracket-unbalanced source `+[`
constructs successfully (no MalformedProgram exists anywhere in the code)
and then begins executing; with the cell nonzero the unmatched `Open`
falls through and the program even halts normally after two steps. -/
theorem spec_C5_counterexample :
    progOfChars ['+', '['] = some [Op.Incr, Op.Open] ∧
    ¬ Balanced [Op.Incr, Op.Open] ∧
    run [Op.Incr, Op.Open] none 3 ⟨⟨0, [0]⟩, 0, [], [], 0⟩ =
      some (.completed, ⟨⟨0, [1]⟩, 2, [], [], 2⟩) := by
  refine ⟨by decide, by decide, by decide⟩

/-- C9: an `Input` instruction with exhausted input leaves the memory (and
in particular the current cell) unchanged and does not fail, performing
only the uniform advance and step count; with input remaining, the front
byte is consumed and written to the current cell. -/
theorem spec_C9 (ops : List Op) (s : EngineState) :
    (ops[s.pos]? = some Op.In → s.input = [] →
      step ops s = .ok ⟨s.mem, s.pos + 1, [], s.output, s.steps + 1⟩) ∧
    (∀ c rest, ops[s.pos]? = some Op.In → s.input = c :: rest →
      s.mem.ptr < s.mem.data.length →
      step ops s = .ok ⟨⟨s.mem.ptr, s.mem.data.set s.mem.ptr (c % 256)⟩,
        s.pos + 1, rest, s.output, s.steps + 1⟩) := by
  constructor
  · intro hop hin
    simp [step, exec, hop, hin]
  · intro c rest hop hin hlt
    have hset : s.mem.set (c % 256) =
        some ⟨s.mem.ptr, s.mem.data.set s.mem.ptr (c % 256)⟩ := by
      unfold Memory.set
      rw [if_pos hlt]
    simp [step, exec, hop, hin, hset]

/-- Witness for C9: exhausted input is a no-op apart from the advance;
remaining input writes its front byte to the current cell. -/
theorem spec_C9_witness :
    step [Op.In] ⟨⟨0, [5]⟩, 0, [], [], 0⟩ = .ok ⟨⟨0, [5]⟩, 1, [], [], 1⟩ ∧
    step [Op.In] ⟨⟨0, [5]⟩, 0, [7, 8], [], 0⟩ =
      .ok ⟨⟨0, [5].set 0 (7 % 256)⟩, 1, [8], [], 1⟩ :=
  ⟨(spec_C9 [Op.In] ⟨⟨0, [5]⟩, 0, [], [], 0⟩).1 (by decide) rfl,
   (spec_C9 [Op.In] ⟨⟨0, [5]⟩, 0, [7, 8], [], 0⟩).2 7 [8] (by decide) rfl (by decide)⟩

/-- C10: an `Output` instruction appends exactly the current cell value to
the output and leaves the memory (pointer and all cells) and the remaining
input unchanged. -/
theorem spec_C10 (ops : List Op) (s : EngineState) (v : Nat)
    (hop : ops[s.pos]? = some Op.Out) (hv : s.mem.read = some v) :
    step ops s = .ok ⟨s.mem, s.pos + 1, s.input, s.output ++ [v], s.steps + 1⟩ := by
  simp [step, exec, hop, hv]

/-- Witness for C10 at a concrete state. -/
theorem spec_C10_witness :
    step [Op.Out] ⟨⟨0, [9]⟩, 0, [4], [2], 0⟩ =
      .ok ⟨⟨0, [9]⟩, 1, [4], [2] ++ [9], 1⟩ :=
  spec_C10 [Op.Out] ⟨⟨0, [9]⟩, 0, [4], [2], 0⟩ 9 (by decide) (by decide)

/-- C4: over a well-formed program the forward and backward bracket scans
are mutual inverses: the forward scan from just after an `Open` finds a
`Close` from which the backward scan returns to the `Open`, and
symmetrically. -/
theorem spec_C4 (ops : List Op) (hbal : Balanced ops) :
    (∀ p, ops[p]? = some Op.Open →
      ∃ q, scanClose ops (p + 1) 0 = some q ∧ scanOpen ops (q - 1) 0 = some p) ∧
    (∀ q, ops[q]? = some Op.Close →
      ∃ p, scanOpen ops (q - 1) 0 = some p ∧ scanClose ops (p + 1) 0 = some q) := by
  constructor
  · intro p hp
    obtain ⟨q, hm⟩ := exists_matched_of_open hbal hp
    exact ⟨q, matched_scanClose hm, matched_scanOpen hm⟩
  · intro q hq
    obtain ⟨p, hm⟩ := exists_matched_of_close hbal hq
    exact ⟨p, matched_scanOpen hm, matched_scanClose hm⟩

/-- Witness for C4 on the concrete well-formed program aka `[[]]`. -/
theorem spec_C4_witness :
    Balanced [Op.Open, Op.Open, Op.Close, Op.Close] ∧
    (∃ q, scanClose [Op.Open, Op.Open, Op.Close, Op.Close] 1 0 = some q ∧
      scanOpen [Op.Open, Op.Open, Op.Close, Op.Close] (q - 1) 0 = some 0) ∧
    (∃ p, scanOpen [Op.Open, Op.Open, Op.Close, Op.Close] 1 0 = some p ∧
      scanClose [Op.Open, Op.Open, Op.Close, Op.Close] (p + 1) 0 = some 2) :=
  ⟨by decide,
   (spec_C4 [Op.Open, Op.Open, Op.Close, Op.Close] (by decide)).1 0 (by decide),
   (spec_C4 [Op.Open, Op.Open, Op.Close, Op.Close] (by decide)).2 2 (by decide)⟩

/-! ### The step-limited run loop -/

theorem run_stepLimit (ops : List Op) (K : Nat) :
    ∀ m s, s.steps + m = K →
    (∀ i, i ≤ m → ∃ si, stepN ops i s = .ok si ∧ si.pos < ops.length) →
    ∃ sm, stepN ops m s = .ok sm ∧
      run ops (some K) (m + 1) s = some (.stepLimitReached, sm) ∧ sm.steps = K := by
  intro m
  induction m with
  | zero =>
    intro s hsteps h
    obtain ⟨s0, h1, h2⟩ := h 0 (Nat.le_refl 0)
    have hs : s = s0 := by simpa [stepN] using h1
    subst hs
    refine ⟨s, rfl, ?_, by omega⟩
    have hul : underLimit (some K) s.steps = false := by
      simp only [underLimit, decide_eq_false_iff_not]
      omega
    unfold run
    rw [if_pos h2, hul]
    rfl
  | succ m ih =>
    intro s hsteps h
    obtain ⟨s0, h0eq, h0pos⟩ := h 0 (Nat.zero_le _)
    have hs0 : s = s0 := by simpa [stepN] using h0eq
    subst hs0
    obtain ⟨s1, h1eq, _⟩ := h 1 (by omega)
    have hstep : step ops s = .ok s1 := by
      cases hst : step ops s with
      | error e =>
        rw [show stepN ops 1 s = .error e by simp [stepN, hst]] at h1eq
        cases h1eq
      | ok t =>
        have ht : t = s1 := by simpa [stepN, hst] using h1eq
        rw [ht]
    have hul : underLimit (some K) s.steps = true := by
      simp only [underLimit, decide_eq_true_eq]
      omega
    have hs1steps : s1.steps = s.steps + 1 := step_ok_steps hstep
    have hshift : ∀ i, i ≤ m → ∃ si, stepN ops i s1 = .ok si ∧ si.pos < ops.length := by
      intro i hi
      obtain ⟨si, ha, hb⟩ := h (i + 1) (by omega)
      rw [stepN_succ_of_step hstep] at ha
      exact ⟨si, ha, hb⟩
    obtain ⟨sm, hm1, hm2, hm3⟩ := ih s1 (by omega) hshift
    refine ⟨sm, ?_, ?_, hm3⟩
    · rw [stepN_succ_of_step hstep]
      exact hm1
    · have hr : run ops (some K) (m + 1 + 1) s = run ops (some K) (m + 1) s1 := by
        conv_lhs => rw [run]
        rw [if_pos h0pos, hul, hstep]
        simp
      rw [hr]
      exact hm2

/-- C8: with a step limit of K, if the program would neither complete nor
fail within K steps then the run loop halts with StepLimitReached after
exactly K steps, in the state obtained by applying the single-step
transition K times to the initial state. -/
theorem spec_C8 (ops : List Op) (K : Nat) (s0 : EngineState) (h0 : s0.steps = 0)
    (h : ∀ i, i ≤ K → ∃ si, stepN ops i s0 = .ok si ∧ si.pos < ops.length) :
    ∃ sK, stepN ops K s0 = .ok sK ∧
      run ops (some K) (K + 1) s0 = some (.stepLimitReached, sK) ∧ sK.steps = K :=
  run_stepLimit ops K K s0 (by omega) h

/-- Witness for C8: the program aka `+[]` with step limit 3 halts with
StepLimitReached in the state reached by three manual steps. -/
theorem spec_C8_witness :
    ∃ sK, stepN [Op.Incr, Op.Open, Op.Close] 3 ⟨⟨0, [0]⟩, 0, [], [], 0⟩ = .ok sK ∧
      run [Op.Incr, Op.Open, Op.Close] (some 3) 4 ⟨⟨0, [0]⟩, 0, [], [], 0⟩ =
        some (.stepLimitReached, sK) ∧
      sK.steps = 3 :=
  spec_C8 [Op.Incr, Op.Open, Op.Close] 3 ⟨⟨0, [0]⟩, 0, [], [], 0⟩ rfl
    (by
      intro i hi
      interval_cases i <;> exact ⟨_, rfl, by decide⟩)

end BF
